import Mathlib

/-!
Verification of the PDF invoice table-extraction logic of `src/app.py`.

Strings are modelled as `List Char` (`Str`), Python floats as `ℚ`
(IEEE rounding, infinities and NaN are outside the model; none of the
verified properties depend on them), table cells as `Option Str`
(`None` or a string), and Python dicts as insertion-ordered association
lists.  Each definition is a direct translation of the corresponding
function or statement block of `src/app.py`.
-/

namespace PdfCsv

set_option maxRecDepth 20000

/-- Strings are lists of characters. -/
abbrev Str := List Char

/-- Convert a Lean string literal to the `Str` model. -/
def toL (s : String) : Str := s.toList

/-- The whitespace characters recognised by Python's `str.split` /
`str.strip` (ASCII subset; the source documents only contain these). -/
def pyIsSpace (c : Char) : Bool :=
  c == ' ' || c == '\t' || c == '\n' || c == '\r' || c == '\x0b' || c == '\x0c'

/-- Python `str.strip()`: drop leading and trailing whitespace. -/
def pyStrip (s : Str) : Str :=
  ((s.dropWhile pyIsSpace).reverse.dropWhile pyIsSpace).reverse

/-- Python `str.split()` (no separator): split at every whitespace
character and drop the empty pieces, leaving the maximal runs of
non-whitespace characters, in order. -/
def words (s : Str) : List Str :=
  (s.splitOnP pyIsSpace).filter (fun w => !w.isEmpty)

/-- Python `' '.join(ws)`. -/
def joinSp : List Str → Str
  | [] => []
  | [w] => w
  | w :: ws => w ++ ' ' :: joinSp ws

/-- Python's substring test `p in s`. -/
def strContains : Str → Str → Bool
  | s, p =>
    p.isPrefixOf s ||
      match s with
      | [] => false
      | _ :: t => strContains t p

/-- Replace every occurrence of character `a` by a space
(Python `s.replace(a, ' ')` for one-character `a`). -/
def replSp (a : Char) (s : Str) : Str :=
  s.map (fun c => if c == a then ' ' else c)

/-- Remove every occurrence of character `a`
(Python `s.replace(a, '')` for one-character `a`). -/
def removeChar (a : Char) (s : Str) : Str :=
  s.filter (fun c => !(c == a))

/-- ASCII decimal digit test. -/
def isDigit (c : Char) : Bool := '0' ≤ c && c ≤ '9'

/-- Numeric value of a digit string (most significant first). -/
def digitsVal (ds : Str) : ℕ :=
  ds.foldl (fun a c => 10 * a + (c.toNat - 48)) 0

/-- Parse the optional exponent suffix of a Python float literal;
`some e` on success (empty input means exponent 0), `none` otherwise. -/
def parseExp : Str → Option ℤ
  | [] => some 0
  | c :: r =>
    if c == 'e' || c == 'E' then
      let sr : ℤ × Str :=
        match r with
        | '+' :: rr => (1, rr)
        | '-' :: rr => (-1, rr)
        | _ => (1, r)
      let ds := sr.2.takeWhile isDigit
      let rest := sr.2.dropWhile isDigit
      if ds.isEmpty || !rest.isEmpty then none
      else some (sr.1 * (digitsVal ds : ℤ))
    else none

/-- Model of Python `float(s)` on the cleaned text: optional sign,
decimal digits with optional fractional part and optional exponent,
surrounded by optional whitespace; `none` when the text is not a float
literal (the `ValueError` case).  Digit-grouping underscores and the
special values `inf`/`nan` are outside the model; the inputs reaching
`float` in `parse_num` have commas, currency and percent signs already
removed. -/
def pyFloat? (s : Str) : Option ℚ :=
  let t := pyStrip s
  let sr : ℚ × Str :=
    match t with
    | '+' :: rr => (1, rr)
    | '-' :: rr => (-1, rr)
    | _ => (1, t)
  let intDs := sr.2.takeWhile isDigit
  let r1 := sr.2.dropWhile isDigit
  let fr : Str × Str :=
    match r1 with
    | '.' :: rr => (rr.takeWhile isDigit, rr.dropWhile isDigit)
    | _ => ([], r1)
  if intDs.isEmpty && fr.1.isEmpty then none
  else
    match parseExp fr.2 with
    | none => none
    | some e =>
      let mant : ℚ := (digitsVal intDs : ℚ) + (digitsVal fr.1 : ℚ) / (10 : ℚ) ^ fr.1.length
      some (sr.1 * mant * (10 : ℚ) ^ e)

/-- The comma / currency-glyph / percent stripping of `parse_num`
(src/app.py line 51). -/
def pyClean (s : Str) : Str :=
  pyStrip (removeChar '%' (removeChar '₪' (removeChar ',' s)))

/-- `parse_num` (src/app.py lines 46-54): `None` and empty input give 0,
any parse failure is caught and gives 0. -/
def parse_num : Option Str → ℚ
  | none => 0
  | some s =>
    let cleaned := pyClean s
    if cleaned.isEmpty then 0 else (pyFloat? cleaned).getD 0

/-- The reversed-Hebrew fragments of `fix_hebrew`
(src/app.py line 71). -/
def reversed_patterns : List Str :=
  [toL "םע", toL "בלש", toL "הזוח", toL "םוכס", toL "רבטצמ", toL "ןובשח", toL "עוציב"]

/-- Does the text contain one of the known reversed fragments? -/
def hasRevPattern (t : Str) : Bool :=
  reversed_patterns.any (fun p => strContains t p)

/-- The whitespace normalisation performed by `fix_hebrew`
(src/app.py lines 61-65): strip, replace newlines and carriage returns
by spaces, then re-join the whitespace-separated words with single
spaces. -/
def fhNorm (s : Str) : Str :=
  joinSp (words (replSp '\r' (replSp '\n' (pyStrip s))))

/-- `fix_hebrew` (src/app.py lines 57-75). -/
def fix_hebrew (s : Str) : Str :=
  if s.isEmpty then s
  else
    let text := fhNorm s
    if hasRevPattern text then text.reverse else text

/-! ## Tables, cells and phase dictionaries -/

/-- A stored cell value is either a parsed number or a text. -/
inductive Val where
  | num (q : ℚ)
  | str (s : Str)
deriving DecidableEq

/-- A table cell as delivered by the PDF collaborator: a string or
absent (`None`). -/
abbrev Cell := Option Str

/-- A table row. -/
abbrev Row := List Cell

/-- A table: a list of rows, the first being the header row. -/
abbrev Table := List Row

/-- Python truthiness of a cell (`if c`): present and non-empty. -/
def cellTruthy : Cell → Bool
  | none => false
  | some s => !s.isEmpty

/-- `' '.join(str(c) for c in row if c)` (src/app.py lines 164 and 176). -/
def rowText (row : Row) : Str :=
  joinSp (row.filterMap (fun c =>
    match c with
    | some s => if s.isEmpty then none else some s
    | none => none))

/-- The summary-row markers of the source (src/app.py line 179). -/
def skip_words : List Str :=
  [toL "סכום כולל", toL "ללוכ םוכס", toL "סכום מצטבר", toL "רבטצמ םוכס", toL "סה\"כ"]

/-- Does the row text contain a summary-row marker
(src/app.py line 180)? -/
def rowHasMarker (row : Row) : Bool :=
  skip_words.any (fun w => strContains (rowText row) w)

/-- The positional placeholder header name `col_<i>`
(src/app.py lines 169 and 190). -/
def colPlaceholder (i : ℕ) : Str := toL "col_" ++ toL (Nat.repr i)

/-- Header list of a qualifying table (src/app.py line 169):
`fix_hebrew` on each truthy header cell, placeholder otherwise. -/
def mkHeaders (header : Row) : List Str :=
  header.enum.map (fun ih =>
    match ih.2 with
    | some s => if s.isEmpty then colPlaceholder ih.1 else fix_hebrew s
    | none => colPlaceholder ih.1)

/-- Column name of cell `i` (src/app.py line 190):
`headers[i]` when in range, placeholder otherwise. -/
def colName (hs : List Str) (i : ℕ) : Str := hs.getD i (colPlaceholder i)

/-- The stage column name (src/app.py line 206):
the last header, or `'stage'` when headers are empty. -/
def stageColName (hs : List Str) : Str := hs.getLastD (toL "stage")

/-- A Phase: an insertion-ordered dictionary from column names to
values. -/
abbrev Phase := List (Str × Val)

/-- Python dict assignment `d[k] = v`: update in place, else append. -/
def dictSet : Phase → Str → Val → Phase
  | [], k, v => [(k, v)]
  | kv :: d, k, v => if kv.1 = k then (k, v) :: d else kv :: dictSet d k v

/-- Python dict lookup `d.get(k)` (first entry with key `k`). -/
def dictGet? : Phase → Str → Option Val
  | [], _ => none
  | kv :: d, k => if kv.1 = k then some kv.2 else dictGet? d k

/-- The keys of a phase, in insertion order. -/
def phaseKeys (p : Phase) : List Str := p.map Prod.fst

/-- `str(cell) if cell else ''` (src/app.py line 192). -/
def cellRaw : Cell → Str
  | none => []
  | some s => if s.isEmpty then [] else s

/-- Cell whitespace normalisation (src/app.py lines 194-195):
replace newlines and carriage returns by spaces, then re-join the
whitespace-separated words with single spaces. -/
def normCell (raw : Str) : Str :=
  joinSp (words (replSp '\r' (replSp '\n' raw)))

/-- The literal zero spellings of the type-inference rule
(src/app.py line 200). -/
def zeroForms : List Str := [toL "0", toL "0.0", toL "0.00"]

/-- The stored value of one cell (src/app.py lines 192-203):
the parsed number when it is non-zero or the trimmed text is a literal
zero spelling, otherwise the Hebrew-fixed text. -/
def storeVal (raw0 : Str) : Val :=
  let raw := normCell raw0
  let fixed := fix_hebrew raw
  let n := parse_num (some raw)
  if n ≠ 0 ∨ pyStrip raw ∈ zeroForms then Val.num n else Val.str fixed

/-- The key of the derived stage field (src/app.py line 207). -/
def stageKey : Str := toL "_stage"

/-- Fill the phase dictionary from the cells of a row
(src/app.py lines 188-203), starting at column index `i`. -/
def buildCells (hs : List Str) : ℕ → Phase → Row → Phase
  | _, d, [] => d
  | i, d, c :: cs =>
    buildCells hs (i + 1) (dictSet d (colName hs i) (storeVal (cellRaw c))) cs

/-- Build the Phase of one data row (src/app.py lines 186-207):
all cells, then the derived `_stage` field, defaulting to the empty
string when the stage column is absent. -/
def buildPhase (hs : List Str) (row : Row) : Phase :=
  let d := buildCells hs 0 [] row
  dictSet d stageKey ((dictGet? d (stageColName hs)).getD (Val.str []))

/-- Process one data row (src/app.py lines 171-209): skip empty rows,
summary rows and all-falsy rows, otherwise build the Phase. -/
def processRow (hs : List Str) (row : Row) : Option Phase :=
  if row.isEmpty then none
  else if rowHasMarker row then none
  else if !row.any cellTruthy then none
  else some (buildPhase hs row)

/-- The milestone-table predicate (src/app.py lines 156-165): at least
two rows, a header row of at least four cells whose concatenated truthy
cells contain the stage marker in canonical or reversed form. -/
def qualifies (t : Table) : Bool :=
  if t.isEmpty || t.length < 2 then false
  else
    let header := t.headD []
    if header.isEmpty || header.length < 4 then false
    else
      let htext := rowText header
      strContains htext (toL "שלב") || strContains htext (toL "בלש")

/-- The phases contributed by one qualifying table, keyed by its own
header list. -/
def tablePhases (t : Table) : List Phase :=
  t.tail.filterMap (processRow (mkHeaders (t.headD [])))

/-- The mutable state of the table loop: `data['headers']` and
`data['phases']`. -/
structure TState where
  headers : List Str
  phases : List Phase
deriving DecidableEq

/-- One iteration of the table loop (src/app.py lines 155-209): a
qualifying table overwrites the headers and appends its phases; any
other table leaves the state unchanged. -/
def stepTable (st : TState) (t : Table) : TState :=
  if qualifies t then
    { headers := mkHeaders (t.headD []), phases := st.phases ++ tablePhases t }
  else st

/-! ## Aggregator -/

/-- Contract-amount column test (src/app.py line 217). -/
def contractCond (h : Str) : Bool :=
  strContains h (toL "סכום") && !strContains h (toL "חשבון")
    && !strContains h (toL "מצטבר")

/-- Billed column test (src/app.py line 219). -/
def billedCond (h : Str) : Bool :=
  strContains h (toL "חשבון זה") || strContains h (toL "בחשבון")

/-- The column-selection loop (src/app.py lines 214-220): one pass over
the headers, reassigning each column on every match. -/
def selectCols (hs : List Str) : Option Str × Option Str :=
  hs.foldl (fun acc h =>
    ((if contractCond h then some h else acc.1),
     (if billedCond h then some h else acc.2))) (none, none)

/-- Python falsiness of an optional string (`not billed_col`). -/
def optStrFalsy : Option Str → Bool
  | none => true
  | some s => s.isEmpty

/-- The billed column after the positional fallback
(src/app.py lines 222-224). -/
def billedColOf (hs : List Str) : Option Str :=
  let b := (selectCols hs).2
  if optStrFalsy b && !hs.isEmpty then some (hs.headD []) else b

/-- Python truthiness of a stored value. -/
def valTruthy : Val → Bool
  | Val.num q => decide (q ≠ 0)
  | Val.str s => !s.isEmpty

/-- Python truthiness of an optional stored value (`p.get(c)`). -/
def optValTruthy : Option Val → Bool
  | none => false
  | some v => valTruthy v

/-- One iteration of the totals loop (src/app.py lines 226-232):
overwrite the contract total with the phase's truthy contract-amount
value, and add the phase's billed value when it is numeric. -/
def totStep (ccol bcol : Option Str) (acc : Val × ℚ) (p : Phase) : Val × ℚ :=
  let ct :=
    match ccol with
    | none => acc.1
    | some c =>
      if c.isEmpty then acc.1
      else
        match dictGet? p c with
        | none => acc.1
        | some v => if valTruthy v then v else acc.1
  let bt :=
    match bcol with
    | none => acc.2
    | some b =>
      if b.isEmpty then acc.2
      else
        match (dictGet? p b).getD (Val.num 0) with
        | Val.num q => acc.2 + q
        | Val.str _ => acc.2
  (ct, bt)

/-- The totals fold over all phases (src/app.py lines 226-232). -/
def totalsFrom (ccol bcol : Option Str) (ps : List Phase) : Val × ℚ :=
  ps.foldl (totStep ccol bcol) (Val.num 0, 0)

/-- The table-derived part of the extraction result. -/
structure ExtractData where
  contract_total : Val
  billed_total : ℚ
  headers : List Str
  phases : List Phase
deriving DecidableEq

/-- The table-processing and totals part of `extract`
(src/app.py lines 126-234).  The text-derived fields `company` and
`vat_total` are independent of the table pipeline and outside the
verified claims, so they are omitted here. -/
def extract (tables : List Table) : ExtractData :=
  let st := tables.foldl stepTable ⟨[], []⟩
  if st.phases.isEmpty then
    { contract_total := Val.num 0, billed_total := 0,
      headers := st.headers, phases := st.phases }
  else
    let ccol := (selectCols st.headers).1
    let bcol := billedColOf st.headers
    let tot := totalsFrom ccol bcol st.phases
    { contract_total := tot.1, billed_total := tot.2,
      headers := st.headers, phases := st.phases }

/-- The summary-marker set as the spec describes it: canonical and
reversed forms of each of total amount, cumulative amount and grand
total.  The source list `skip_words` lacks the reversed grand total. -/
def specSummaryMarkers : List Str :=
  [toL "סכום כולל", toL "ללוכ םוכס", toL "סכום מצטבר", toL "רבטצמ םוכס",
   toL "סה\"כ", toL "כ\"הס"]

/-- Extensional reading of "collapses newlines and consecutive
whitespace to single spaces and trims the ends": every whitespace
character of the text is a plain space, the text neither starts nor
ends with a space, and no two consecutive characters are both
spaces. -/
def WsNormal (s : Str) : Prop :=
  (∀ c ∈ s, pyIsSpace c = true → c = ' ') ∧
  (∀ c ∈ s.head?, c ≠ ' ') ∧
  (∀ c ∈ s.getLast?, c ≠ ' ') ∧
  s.Chain' (fun a b => ¬(a = ' ' ∧ b = ' '))

/-! ## Lemmas: whitespace normalisation -/

theorem splitOnP_chunks (p : Char → Bool) (xs : Str) :
    ∀ w ∈ xs.splitOnP p, ∀ c ∈ w, p c = false := by
  induction xs with
  | nil =>
    intro w hw c hc
    rw [List.splitOnP_nil] at hw
    simp only [List.mem_singleton] at hw
    subst hw
    simp at hc
  | cons x xs ih =>
    intro w hw c hc
    rw [List.splitOnP_cons] at hw
    by_cases hp : p x = true
    · rw [if_pos hp] at hw
      rcases List.mem_cons.mp hw with h | h
      · subst h; simp at hc
      · exact ih w h c hc
    · rw [if_neg hp] at hw
      obtain ⟨h, t, ht⟩ := List.exists_cons_of_ne_nil (List.splitOnP_ne_nil p xs)
      rw [ht] at hw
      simp only [List.modifyHead, List.mem_cons] at hw
      rcases hw with h1 | h1
      · subst h1
        rcases List.mem_cons.mp hc with h2 | h2
        · subst h2; exact Bool.eq_false_iff.mpr hp
        · exact ih h (ht ▸ List.mem_cons_self _ _) c h2
      · exact ih w (ht ▸ List.mem_cons_of_mem _ h1) c hc

theorem words_chunks (s : Str) :
    ∀ w ∈ words s, w ≠ [] ∧ ∀ c ∈ w, pyIsSpace c = false := by
  intro w hw
  unfold words at hw
  rw [List.mem_filter] at hw
  refine ⟨?_, splitOnP_chunks pyIsSpace s w hw.1⟩
  intro hnil
  subst hnil
  simp at hw

theorem joinSp_cons₂ (w x : Str) (ws : List Str) :
    joinSp (w :: x :: ws) = w ++ ' ' :: joinSp (x :: ws) := rfl

theorem joinSp_ne_nil (x : Str) (ws : List Str) (hx : x ≠ []) :
    joinSp (x :: ws) ≠ [] := by
  cases ws with
  | nil => exact hx
  | cons y ws => simp [joinSp_cons₂, hx]

theorem chain'_of_no_space (w : Str) (h : ∀ c ∈ w, pyIsSpace c = false) :
    w.Chain' (fun a b => ¬(a = ' ' ∧ b = ' ')) := by
  induction w with
  | nil => exact List.chain'_nil
  | cons a w ih =>
    rw [List.chain'_cons']
    constructor
    · intro y _ hab
      have ha := h a (List.mem_cons_self _ _)
      rw [hab.1] at ha
      simp [pyIsSpace] at ha
    · exact ih (fun c hc => h c (List.mem_cons_of_mem _ hc))

theorem no_space_ne_space {c : Char} (h : pyIsSpace c = false) : c ≠ ' ' := by
  intro hc
  rw [hc] at h
  simp [pyIsSpace] at h

theorem joinSp_wsNormal (l : List Str)
    (hl : ∀ w ∈ l, w ≠ [] ∧ ∀ c ∈ w, pyIsSpace c = false) :
    WsNormal (joinSp l) := by
  induction l with
  | nil => exact ⟨by simp [joinSp], by simp [joinSp], by simp [joinSp], List.chain'_nil⟩
  | cons w ws ih =>
    obtain ⟨hw, hwc⟩ := hl w (List.mem_cons_self _ _)
    cases ws with
    | nil =>
      refine ⟨?_, ?_, ?_, chain'_of_no_space w hwc⟩
      · intro c hc hsp
        rw [hwc c hc] at hsp
        exact absurd hsp (by simp)
      · intro c hc
        exact no_space_ne_space (hwc c (List.mem_of_mem_head? hc))
      · intro c hc
        exact no_space_ne_space (hwc c (List.mem_of_mem_getLast? hc))
    | cons x ws =>
      obtain ⟨hx, _⟩ := hl x (List.mem_cons_of_mem _ (List.mem_cons_self _ _))
      have ihws := ih (fun v hv => hl v (List.mem_cons_of_mem _ hv))
      have hJ : joinSp (x :: ws) ≠ [] := joinSp_ne_nil x ws hx
      rw [joinSp_cons₂]
      obtain ⟨i1, i2, i3, i4⟩ := ihws
      refine ⟨?_, ?_, ?_, ?_⟩
      · intro c hc hsp
        rcases List.mem_append.mp hc with h | h
        · rw [hwc c h] at hsp
          exact absurd hsp (by simp)
        · rcases List.mem_cons.mp h with h1 | h1
          · exact h1
          · exact i1 c h1 hsp
      · intro c hc
        rw [List.head?_append] at hc
        obtain ⟨a, w', hw'⟩ := List.exists_cons_of_ne_nil hw
        subst hw'
        simp only [List.head?_cons, Option.or_some, Option.mem_def,
          Option.some.injEq] at hc
        rw [← hc]
        exact no_space_ne_space (hwc a (List.mem_cons_self _ _))
      · intro c hc
        rw [List.getLast?_append] at hc
        obtain ⟨a, J', hJ'⟩ := List.exists_cons_of_ne_nil hJ
        have : (' ' :: joinSp (x :: ws)).getLast? = (joinSp (x :: ws)).getLast? := by
          rw [hJ']
          exact List.getLast?_cons_cons
        rw [this, hJ'] at hc
        have hsome : (a :: J').getLast?.isSome = true :=
          List.getLast?_isSome.mpr (by simp)
        rcases Option.isSome_iff_exists.mp hsome with ⟨b, hb⟩
        rw [hb] at hc
        simp only [Option.or_some, Option.mem_def, Option.some.injEq] at hc
        rw [← hc]
        exact i3 b (by rw [hJ', hb]; rfl)
      · rw [List.chain'_append]
        refine ⟨chain'_of_no_space w hwc, ?_, ?_⟩
        · rw [List.chain'_cons']
          refine ⟨?_, i4⟩
          intro y hy hab
          exact i2 y hy hab.2
        · intro a ha y hy hab
          rcases List.mem_cons.mp (List.mem_of_mem_head? hy) with h1 | h1
          · exact no_space_ne_space (hwc a (List.mem_of_mem_getLast? ha)) hab.1
          · exact no_space_ne_space (hwc a (List.mem_of_mem_getLast? ha)) hab.1

theorem fhNorm_wsNormal (s : Str) : WsNormal (fhNorm s) :=
  joinSp_wsNormal _ (words_chunks _)

/-- Claim C6: `fix_hebrew` first collapses newlines, carriage returns
and consecutive whitespace to single spaces and trims the ends; when
the normalised text contains one of the fixed reversed Hebrew
fragments it returns the entire normalised string with its character
order flipped, and otherwise it returns the normalised string
unchanged. -/
theorem fix_hebrew_spec (s : Str) :
    WsNormal (fhNorm s) ∧
    fix_hebrew s =
      (if hasRevPattern (fhNorm s) then (fhNorm s).reverse else fhNorm s) := by
  refine ⟨fhNorm_wsNormal s, ?_⟩
  unfold fix_hebrew
  by_cases h : s.isEmpty
  · rw [if_pos h]
    rw [List.isEmpty_iff] at h
    subst h
    decide
  · rw [if_neg h]

/-! ## Lemmas: phase dictionaries -/

theorem mem_phaseKeys_dictSet (d : Phase) (k : Str) (v : Val) (x : Str) :
    x ∈ phaseKeys (dictSet d k v) ↔ x ∈ phaseKeys d ∨ x = k := by
  induction d with
  | nil => simp [dictSet, phaseKeys]
  | cons kv d ih =>
    by_cases h : kv.1 = k
    · rw [dictSet, if_pos h]
      simp only [phaseKeys, List.map_cons, List.mem_cons]
      rw [h]
      tauto
    · rw [dictSet, if_neg h]
      simp only [phaseKeys, List.map_cons, List.mem_cons] at ih ⊢
      rw [ih]
      tauto

theorem dictGet?_dictSet_self (d : Phase) (k : Str) (v : Val) :
    dictGet? (dictSet d k v) k = some v := by
  induction d with
  | nil => simp [dictSet, dictGet?]
  | cons kv d ih =>
    by_cases h : kv.1 = k
    · rw [dictSet, if_pos h, dictGet?, if_pos rfl]
    · rw [dictSet, if_neg h, dictGet?, if_neg h, ih]

theorem dictGet?_eq_none (d : Phase) (k : Str) (h : k ∉ phaseKeys d) :
    dictGet? d k = none := by
  induction d with
  | nil => rfl
  | cons kv d ih =>
    simp only [phaseKeys, List.map_cons, List.mem_cons, not_or] at h
    rw [dictGet?, if_neg (fun he => h.1 he.symm), ih h.2]

theorem mem_phaseKeys_buildCells (hs : List Str) (cs : Row) :
    ∀ (i : ℕ) (d : Phase) (x : Str),
      x ∈ phaseKeys (buildCells hs i d cs) ↔
        x ∈ phaseKeys d ∨ ∃ j, j < cs.length ∧ x = colName hs (i + j) := by
  induction cs with
  | nil =>
    intro i d x
    simp [buildCells]
  | cons c cs ih =>
    intro i d x
    rw [buildCells, ih (i + 1), mem_phaseKeys_dictSet]
    constructor
    · rintro ((hd | he) | ⟨j, hj, hx⟩)
      · exact Or.inl hd
      · exact Or.inr ⟨0, by simp, by simpa using he⟩
      · refine Or.inr ⟨j + 1, by simp only [List.length_cons]; omega, ?_⟩
        rw [hx]
        congr 1
        omega
    · rintro (hd | ⟨j, hj, hx⟩)
      · exact Or.inl (Or.inl hd)
      · cases j with
        | zero => exact Or.inl (Or.inr (by simpa using hx))
        | succ j =>
          refine Or.inr ⟨j, by simp only [List.length_cons] at hj; omega, ?_⟩
          rw [hx]
          congr 1
          omega

/-- Claim C5 (amended): every Phase has exactly the keys derived from
its own source row — for each cell index `j` of the row the key
`headers[j]` when `j` is in range and the placeholder `col_<j>`
otherwise — plus the derived `_stage` key.  Only when the row has
exactly one cell per header (and the headers are distinct) does this
coincide with "the result's headers plus `_stage`". -/
theorem buildPhase_keys (hs : List Str) (row : Row) (x : Str) :
    x ∈ phaseKeys (buildPhase hs row) ↔
      (∃ j, j < row.length ∧ x = colName hs j) ∨ x = stageKey := by
  unfold buildPhase
  rw [mem_phaseKeys_dictSet, mem_phaseKeys_buildCells]
  simp [phaseKeys]

/-- Claim C5 counterexample: a qualifying four-column table whose data
row has only two cells produces a Phase that misses the result's
header key `c`. -/
theorem phase_keys_cex :
    (toL "c") ∈ (extract [[[some (toL "a"), some (toL "b"), some (toL "c"), some (toL "שלב")],
                           [some (toL "1"), some (toL "2")]]]).headers ∧
    phaseKeys ((extract [[[some (toL "a"), some (toL "b"), some (toL "c"), some (toL "שלב")],
                          [some (toL "1"), some (toL "2")]]]).phases.headD []) =
      [toL "a", toL "b", stageKey] ∧
    (extract [[[some (toL "a"), some (toL "b"), some (toL "c"), some (toL "שלב")],
               [some (toL "1"), some (toL "2")]]]).phases.length = 1 ∧
    (toL "c") ∉ phaseKeys ((extract [[[some (toL "a"), some (toL "b"), some (toL "c"), some (toL "שלב")],
                                      [some (toL "1"), some (toL "2")]]]).phases.headD []) := by
  with_unfolding_all decide

/-- Claim C10 (amended): `_stage` is always defined; and for a row
whose cell count is smaller than the header count, provided the last
header's name is not among the column names assigned from the row's
cells (in particular whenever the headers are pairwise distinct), the
`_stage` value is the empty string.  When the last header duplicates
an earlier header that the row does cover, `_stage` instead holds that
cell's value. -/
theorem stage_field_spec (hs : List Str) (row : Row) :
    stageKey ∈ phaseKeys (buildPhase hs row) ∧
    (row.length < hs.length →
      (∀ j, j < row.length → colName hs j ≠ stageColName hs) →
      dictGet? (buildPhase hs row) stageKey = some (Val.str [])) := by
  constructor
  · unfold buildPhase
    rw [mem_phaseKeys_dictSet]
    exact Or.inr rfl
  · intro _ hdist
    simp only [buildPhase]
    have hnone : dictGet? (buildCells hs 0 [] row) (stageColName hs) = none := by
      apply dictGet?_eq_none
      rw [mem_phaseKeys_buildCells]
      rintro (hd | ⟨j, hj, hx⟩)
      · simp [phaseKeys] at hd
      · exact hdist j hj (by rw [Nat.zero_add] at hx; exact hx.symm)
    rw [hnone]
    exact dictGet?_dictSet_self _ _ _

/-- Claim C10 witness: a one-cell row under two distinct headers gets
`_stage` defined and equal to the empty string. -/
theorem stage_field_spec_witness :
    stageKey ∈ phaseKeys (buildPhase [toL "a", toL "b"] [some (toL "1")]) ∧
    dictGet? (buildPhase [toL "a", toL "b"] [some (toL "1")]) stageKey =
      some (Val.str []) :=
  ⟨(stage_field_spec [toL "a", toL "b"] [some (toL "1")]).1,
   (stage_field_spec [toL "a", toL "b"] [some (toL "1")]).2
     (by decide) (by with_unfolding_all decide)⟩

/-- Claim C10 counterexample: when the last header duplicates the
first header and the row is shorter than the headers, `_stage` holds
the first cell's value (the number 5), not the empty string. -/
theorem stage_field_cex :
    ([some (toL "5"), some (toL "a"), some (toL "b")] : Row).length <
      (extract [[[some (toL "שלב"), some (toL "x"), some (toL "y"), some (toL "שלב")],
                 [some (toL "5"), some (toL "a"), some (toL "b")]]]).headers.length ∧
    dictGet? ((extract [[[some (toL "שלב"), some (toL "x"), some (toL "y"), some (toL "שלב")],
                         [some (toL "5"), some (toL "a"), some (toL "b")]]]).phases.headD [])
        stageKey = some (Val.num 5) ∧
    Val.num 5 ≠ Val.str [] := by
  with_unfolding_all decide

/-! ## Lemmas: the table loop -/

theorem stepTable_of_qualifies {t : Table} (st : TState) (h : qualifies t = true) :
    stepTable st t =
      ⟨mkHeaders (t.headD []), st.phases ++ tablePhases t⟩ := by
  rw [stepTable, if_pos h]

theorem stepTable_of_not_qualifies {t : Table} (st : TState) (h : qualifies t = false) :
    stepTable st t = st := by
  rw [stepTable, if_neg (by simp [h])]

theorem foldl_stepTable (ts : List Table) :
    ∀ st : TState,
      ts.foldl stepTable st =
        ⟨((ts.filter qualifies).map (fun t => mkHeaders (t.headD []))).getLastD st.headers,
         st.phases ++ ((ts.filter qualifies).map tablePhases).flatten⟩ := by
  induction ts with
  | nil =>
    intro st
    simp
  | cons t ts ih =>
    intro st
    rw [List.foldl_cons]
    by_cases hq : qualifies t
    · rw [stepTable_of_qualifies st hq, ih, List.filter_cons_of_pos hq]
      simp only [List.map_cons, List.flatten_cons, List.append_assoc,
        List.getLastD_cons]
    · rw [stepTable_of_not_qualifies st (eq_false_of_ne_true hq), ih,
        List.filter_cons_of_neg hq]

/-- Claim C1 (amended): every qualifying table contributes, not only
the first one.  The result's `headers` list comes from the **last**
qualifying table's header row, and `phases` is the concatenation, over
all qualifying tables in extraction order, of each table's qualifying
rows, each row keyed by its own table's headers. -/
theorem extract_all_qualifying_tables (tables : List Table) :
    (extract tables).headers =
      ((tables.filter qualifies).map (fun t => mkHeaders (t.headD []))).getLastD [] ∧
    (extract tables).phases =
      ((tables.filter qualifies).map tablePhases).flatten := by
  have h := foldl_stepTable tables ⟨[], []⟩
  simp only [extract, h]
  constructor
  · split <;> rfl
  · split <;> rfl

/-- Claim C1 counterexample: with two qualifying tables, the result's
headers are not built from the first table's header row, and the
second table's row does appear in `phases` (the first table alone
contributes a single phase, yet the result has two). -/
theorem extract_first_table_cex :
    qualifies [[some (toL "שלב"), some (toL "b1"), some (toL "c1"), some (toL "d1")],
               [some (toL "1"), some (toL "2"), some (toL "3"), some (toL "4")]] = true ∧
    qualifies [[some (toL "שלב"), some (toL "b2"), some (toL "c2"), some (toL "d2")],
               [some (toL "5"), some (toL "6"), some (toL "7"), some (toL "8")]] = true ∧
    (tablePhases [[some (toL "שלב"), some (toL "b1"), some (toL "c1"), some (toL "d1")],
                  [some (toL "1"), some (toL "2"), some (toL "3"), some (toL "4")]]).length = 1 ∧
    (extract [[[some (toL "שלב"), some (toL "b1"), some (toL "c1"), some (toL "d1")],
               [some (toL "1"), some (toL "2"), some (toL "3"), some (toL "4")]],
              [[some (toL "שלב"), some (toL "b2"), some (toL "c2"), some (toL "d2")],
               [some (toL "5"), some (toL "6"), some (toL "7"), some (toL "8")]]]).phases.length = 2 ∧
    (extract [[[some (toL "שלב"), some (toL "b1"), some (toL "c1"), some (toL "d1")],
               [some (toL "1"), some (toL "2"), some (toL "3"), some (toL "4")]],
              [[some (toL "שלב"), some (toL "b2"), some (toL "c2"), some (toL "d2")],
               [some (toL "5"), some (toL "6"), some (toL "7"), some (toL "8")]]]).headers ≠
      mkHeaders [some (toL "שלב"), some (toL "b1"), some (toL "c1"), some (toL "d1")] := by
  with_unfolding_all decide

/-- Claim C9: when no extracted table satisfies the milestone-table
predicate, extraction returns (it is a total function, nothing is
raised) the result with empty `phases`, empty `headers` and both
totals equal to zero. -/
theorem extract_no_qualifying_table (tables : List Table)
    (h : ∀ t ∈ tables, qualifies t = false) :
    extract tables = ⟨Val.num 0, 0, [], []⟩ := by
  have hf : tables.filter qualifies = [] :=
    List.filter_eq_nil_iff.mpr (by intro a ha; simp [h a ha])
  have hfold := foldl_stepTable tables ⟨[], []⟩
  rw [hf] at hfold
  simp only [List.getLast?_nil, List.map_nil, List.flatten_nil,
    List.append_nil] at hfold
  simp [extract, hfold]

/-- Claim C9 witness: a document with a single non-qualifying table. -/
theorem extract_no_qualifying_table_witness :
    (∀ t ∈ [([[some (toL "a"), some (toL "b"), some (toL "c"), some (toL "d")],
              [some (toL "1")]] : Table)], qualifies t = false) ∧
    extract [[[some (toL "a"), some (toL "b"), some (toL "c"), some (toL "d")],
              [some (toL "1")]]] = ⟨Val.num 0, 0, [], []⟩ :=
  ⟨by decide,
   extract_no_qualifying_table _ (by decide)⟩

/-! ## Lemmas: the aggregator -/

theorem selectCols_split (hs : List Str) :
    ∀ a b : Option Str,
      hs.foldl (fun acc h =>
        ((if contractCond h then some h else acc.1),
         (if billedCond h then some h else acc.2))) (a, b) =
      (hs.foldl (fun acc h => if contractCond h then some h else acc) a,
       hs.foldl (fun acc h => if billedCond h then some h else acc) b) := by
  induction hs with
  | nil => intro a b; rfl
  | cons h hs ih =>
    intro a b
    rw [List.foldl_cons, List.foldl_cons, List.foldl_cons]
    exact ih _ _

theorem foldl_last_assign (p : Str → Bool) (hs : List Str) :
    ∀ a : Option Str,
      hs.foldl (fun acc h => if p h then some h else acc) a =
        (match hs.reverse.find? p with
          | some x => some x
          | none => a) := by
  induction hs with
  | nil => intro a; rfl
  | cons h hs ih =>
    intro a
    rw [List.foldl_cons, ih, List.reverse_cons, List.find?_append]
    cases hf : hs.reverse.find? p with
    | some x => rfl
    | none =>
      cases hp : p h with
      | true => simp [List.find?_cons, hp]
      | false => simp [List.find?_cons, hp]

theorem billedCond_ne_nil {h : Str} (hb : billedCond h = true) : h ≠ [] := by
  intro he
  rw [he] at hb
  exact absurd hb (by decide)

/-- Claim C2 (amended): for every headers list the aggregator selects
as contract-amount column the **last** header containing the amount
token and neither the invoice/account nor the cumulative token, and as
billed column the **last** header containing the this-invoice or
on-invoice token; only when no header matches the billed criterion
does the billed column fall back to the first header of the list. -/
theorem aggregator_selects_last (hs : List Str) :
    (selectCols hs).1 = hs.reverse.find? contractCond ∧
    billedColOf hs =
      (match hs.reverse.find? billedCond with
        | some b => some b
        | none => hs.head?) := by
  have hsplit := selectCols_split hs none none
  have h1 : (selectCols hs).1 =
      (match hs.reverse.find? contractCond with
        | some x => some x
        | none => (none : Option Str)) := by
    rw [selectCols, hsplit]
    exact foldl_last_assign contractCond hs none
  have h2 : (selectCols hs).2 =
      (match hs.reverse.find? billedCond with
        | some x => some x
        | none => (none : Option Str)) := by
    rw [selectCols, hsplit]
    exact foldl_last_assign billedCond hs none
  constructor
  · rw [h1]
    cases hs.reverse.find? contractCond <;> rfl
  · rw [billedColOf, h2]
    cases hf : hs.reverse.find? billedCond with
    | some b =>
      have hb : b ≠ [] := billedCond_ne_nil (List.find?_some hf)
      have hbe : optStrFalsy (some b) = false := by
        cases b with
        | nil => exact absurd rfl hb
        | cons x xs => rfl
      simp [hbe]
    | none =>
      cases hs with
      | nil => rfl
      | cons h t => rfl

/-- Claim C2 counterexample: with two headers matching the contract
criterion and two matching the billed criterion, the source selects
the last match of each, not the first. -/
theorem aggregator_first_cex :
    (selectCols [toL "סכום א", toL "סכום ב", toL "בחשבון א", toL "בחשבון ב"]).1 =
      some (toL "סכום ב") ∧
    ([toL "סכום א", toL "סכום ב", toL "בחשבון א", toL "בחשבון ב"].find? contractCond) =
      some (toL "סכום א") ∧
    billedColOf [toL "סכום א", toL "סכום ב", toL "בחשבון א", toL "בחשבון ב"] =
      some (toL "בחשבון ב") ∧
    ([toL "סכום א", toL "סכום ב", toL "בחשבון א", toL "בחשבון ב"].find? billedCond) =
      some (toL "בחשבון א") ∧
    (selectCols [toL "סכום א", toL "סכום ב", toL "בחשבון א", toL "בחשבון ב"]).1 ≠
      [toL "סכום א", toL "סכום ב", toL "בחשבון א", toL "בחשבון ב"].find? contractCond ∧
    billedColOf [toL "סכום א", toL "סכום ב", toL "בחשבון א", toL "בחשבון ב"] ≠
      [toL "סכום א", toL "סכום ב", toL "בחשבון א", toL "בחשבון ב"].find? billedCond := by
  with_unfolding_all decide

theorem totStep_fst (c : Str) (hc : c ≠ []) (bcol : Option Str)
    (acc : Val × ℚ) (p : Phase) :
    (totStep (some c) bcol acc p).1 =
      (if optValTruthy (dictGet? p c) then (dictGet? p c).getD (Val.num 0)
       else acc.1) := by
  have hce : c.isEmpty = false := by
    cases c with
    | nil => exact absurd rfl hc
    | cons a l => rfl
  simp only [totStep, hce, Bool.false_eq_true, if_false]
  cases hg : dictGet? p c with
  | none => rfl
  | some v =>
    cases hv : valTruthy v with
    | true => simp [optValTruthy, hv]
    | false => simp [optValTruthy, hv]

theorem foldl_totStep_fst (c : Str) (hc : c ≠ []) (bcol : Option Str) :
    ∀ (ps : List Phase) (acc : Val × ℚ),
      (ps.foldl (totStep (some c) bcol) acc).1 =
        (match (ps.filter (fun p => optValTruthy (dictGet? p c))).getLast? with
          | none => acc.1
          | some p => (dictGet? p c).getD (Val.num 0)) := by
  intro ps
  induction ps with
  | nil => intro acc; rfl
  | cons p ps ih =>
    intro acc
    rw [List.foldl_cons, ih]
    cases hq : optValTruthy (dictGet? p c) with
    | true =>
      have hfc : List.filter (fun q => optValTruthy (dictGet? q c)) (p :: ps) =
          p :: List.filter (fun q => optValTruthy (dictGet? q c)) ps :=
        List.filter_cons_of_pos hq
      rw [hfc]
      cases hfp : ps.filter (fun q => optValTruthy (dictGet? q c)) with
      | nil =>
        simp only [List.getLast?_singleton]
        rw [totStep_fst c hc bcol acc p, if_pos hq]
        rfl
      | cons a l =>
        rw [List.getLast?_cons_cons]
        have hsome : (a :: l).getLast?.isSome = true :=
          List.getLast?_isSome.mpr (by simp)
        rcases Option.isSome_iff_exists.mp hsome with ⟨b, hb⟩
        rw [hb]
    | false =>
      have hfc : List.filter (fun q => optValTruthy (dictGet? q c)) (p :: ps) =
          List.filter (fun q => optValTruthy (dictGet? q c)) ps :=
        List.filter_cons_of_neg (by simp [hq])
      rw [hfc]
      rw [totStep_fst c hc bcol acc p, if_neg (by simp [hq])]

/-- Claim C3: given a selected (hence non-empty) contract-amount
column, the contract total after the totals fold is the value stored
under that column in the **last** phase whose value there is present
and truthy — a per-phase overwrite, neither a sum nor a maximum — and
it stays the number 0 when no phase has such a value. -/
theorem contract_total_last_write (c : Str) (hc : c ≠ []) (bcol : Option Str)
    (ps : List Phase) :
    (totalsFrom (some c) bcol ps).1 =
      (match (ps.filter (fun p => optValTruthy (dictGet? p c))).getLast? with
        | none => Val.num 0
        | some p => (dictGet? p c).getD (Val.num 0)) := by
  rw [totalsFrom, foldl_totStep_fst c hc bcol]

/-- Claim C3 witness: two phases with truthy values 3 and 7 under the
column yield contract total 7 (the last), not 10 (the sum). -/
theorem contract_total_last_write_witness :
    toL "x" ≠ [] ∧
    (totalsFrom (some (toL "x")) none
      [[(toL "x", Val.num 3)], [(toL "x", Val.num 7)]]).1 = Val.num 7 :=
  ⟨by decide,
   by
    rw [contract_total_last_write (toL "x") (by decide) none
      [[(toL "x", Val.num 3)], [(toL "x", Val.num 7)]]]
    with_unfolding_all decide⟩

/-! ## Summary rows, cell typing, numeric parsing -/

/-- Claim C4 (amended): a row whose concatenation of non-empty cells
contains one of the **five** source markers — canonical and reversed
"total amount", canonical and reversed "cumulative amount", and the
canonical "grand total" only — is excluded from `phases`.  The
reversed form of the grand-total marker is not in the source list. -/
theorem summary_row_excluded (hs : List Str) (row : Row)
    (h : rowHasMarker row = true) : processRow hs row = none := by
  unfold processRow
  by_cases he : row.isEmpty = true
  · rw [if_pos he]
  · rw [if_neg he, if_pos h]

/-- Claim C4 witness: a row containing the canonical grand-total
marker is skipped. -/
theorem summary_row_excluded_witness :
    rowHasMarker [some (toL "סה\"כ"), some (toL "9")] = true ∧
    processRow [] [some (toL "סה\"כ"), some (toL "9")] = none :=
  ⟨by decide, summary_row_excluded [] [some (toL "סה\"כ"), some (toL "9")] (by decide)⟩

/-- Claim C4 counterexample: a row containing the reversed grand-total
marker — part of the claim's marker set — is **not** excluded: it
matches no source skip word and yields a phase. -/
theorem summary_marker_cex :
    specSummaryMarkers.any
      (fun w => strContains
        (rowText [some (toL "1"), some (toL "2"), some (toL "3"), some (toL "כ\"הס")]) w) = true ∧
    rowHasMarker [some (toL "1"), some (toL "2"), some (toL "3"), some (toL "כ\"הס")] = false ∧
    (extract [[[some (toL "שלב א"), some (toL "b"), some (toL "c"), some (toL "d")],
               [some (toL "1"), some (toL "2"), some (toL "3"), some (toL "כ\"הס")]]]).phases.length = 1 := by
  with_unfolding_all decide

/-- Claim C7: a cell is stored as the parsed number exactly when the
parse of the whitespace-normalised raw value is non-zero or the
trimmed raw value is literally one of "0", "0.0", "0.00"; in every
other case the normalised Hebrew-fixed text is stored.  In particular
raw "0" is stored as the number 0 and raw "abc" as the text "abc". -/
theorem cell_type_rule :
    (∀ raw, storeVal raw =
      (if parse_num (some (normCell raw)) ≠ 0 ∨ pyStrip (normCell raw) ∈ zeroForms
       then Val.num (parse_num (some (normCell raw)))
       else Val.str (fix_hebrew (normCell raw)))) ∧
    (∀ raw, (∃ q, storeVal raw = Val.num q) ↔
      (parse_num (some (normCell raw)) ≠ 0 ∨ pyStrip (normCell raw) ∈ zeroForms)) ∧
    storeVal (toL "0") = Val.num 0 ∧
    storeVal (toL "abc") = Val.str (toL "abc") := by
  have h1 : ∀ raw, storeVal raw =
      (if parse_num (some (normCell raw)) ≠ 0 ∨ pyStrip (normCell raw) ∈ zeroForms
       then Val.num (parse_num (some (normCell raw)))
       else Val.str (fix_hebrew (normCell raw))) := fun raw => rfl
  refine ⟨h1, ?_, by with_unfolding_all decide, by with_unfolding_all decide⟩
  intro raw
  constructor
  · rintro ⟨q, hq⟩
    by_contra hcond
    rw [h1 raw, if_neg hcond] at hq
    exact absurd hq (by simp)
  · intro hcond
    exact ⟨parse_num (some (normCell raw)), by rw [h1 raw, if_pos hcond]⟩

/-- Claim C8: `parse_num` is a total function (nothing is raised): it
returns 0 for null and empty input, and 0 whenever the text left after
stripping commas, the currency glyph and percent signs fails to parse
as a float. -/
theorem parse_num_defaults :
    parse_num none = 0 ∧
    parse_num (some []) = 0 ∧
    (∀ s, pyClean s = [] → parse_num (some s) = 0) ∧
    (∀ s, pyFloat? (pyClean s) = none → parse_num (some s) = 0) := by
  refine ⟨rfl, rfl, ?_, ?_⟩
  · intro s h
    simp only [parse_num]
    rw [h]
    rfl
  · intro s h
    simp only [parse_num]
    by_cases he : (pyClean s).isEmpty = true
    · rw [if_pos he]
    · rw [if_neg he, h]
      rfl

/-- Claim C8 witness: "abc" fails the float parse and `parse_num`
returns 0 for it. -/
theorem parse_num_defaults_witness :
    pyFloat? (pyClean (toL "abc")) = none ∧ parse_num (some (toL "abc")) = 0 :=
  ⟨by with_unfolding_all decide,
   parse_num_defaults.2.2.2 (toL "abc") (by with_unfolding_all decide)⟩

end PdfCsv
